import Mathlib

/-
Verification of the Dirichlet sampler (rand_distr, src/rand_distr/src/dirichlet.rs).

Shallow embedding notes:
* The generic float type `F` of the Rust code is modelled by an exact value
  type `F`: NaN, signed infinities, and finite values carried as rationals.
  Ordered comparisons follow IEEE semantics (every comparison with NaN is
  false); finite arithmetic is exact.
* The shared randomness source `rng` is modelled as a stream of values
  together with a position; each collaborator draw consumes one stream value.
* The Beta and Gamma collaborator distributions live outside this file's
  source; their constructors and samplers are modelled from the spec.
* `Dirichlet.sample` returns `Option`: `none` models a panic, namely the
  `unwrap()` of a collaborator constructor failing, or the out-of-bounds
  write `samples[n - 1]` when `n = 0`.  It also returns the ordered trace of
  collaborator requests, making the number, parameters and order of the
  Beta/Gamma draws observable.
-/

/-- IEEE-like float value: NaN, infinity (the Bool is the sign: `true` = positive
infinity), or a finite value represented exactly as a rational. -/
inductive F where
  | nan : F
  | inf : Bool → F
  | fin : ℚ → F
deriving DecidableEq

/-- Ordered strict comparison; any comparison involving NaN is false. -/
def F.lt : F → F → Bool
  | .nan, _ => false
  | .inf _, .nan => false
  | .inf b1, .inf b2 => !b1 && b2
  | .inf b, .fin _ => !b
  | .fin _, .nan => false
  | .fin _, .inf b => b
  | .fin a, .fin b => decide (a < b)

/-- Ordered non-strict comparison; any comparison involving NaN is false. -/
def F.le : F → F → Bool
  | .nan, _ => false
  | .inf _, .nan => false
  | .inf b1, .inf b2 => !b1 || b2
  | .inf b, .fin _ => !b
  | .fin _, .nan => false
  | .fin _, .inf b => b
  | .fin a, .fin b => decide (a ≤ b)

/-- Addition: NaN propagates, opposite infinities give NaN, finite addition is exact. -/
def F.add : F → F → F
  | .nan, _ => .nan
  | .inf _, .nan => .nan
  | .inf b1, .inf b2 => if b1 = b2 then .inf b1 else .nan
  | .inf b, .fin _ => .inf b
  | .fin _, .nan => .nan
  | .fin _, .inf b => .inf b
  | .fin a, .fin b => .fin (a + b)

/-- Negation. -/
def F.neg : F → F
  | .nan => .nan
  | .inf b => .inf !b
  | .fin a => .fin (-a)

/-- Subtraction, as addition of the negation. -/
def F.sub (x y : F) : F := x.add y.neg

/-- Multiplication: NaN propagates, infinity times zero is NaN, signs multiply. -/
def F.mul : F → F → F
  | .nan, _ => .nan
  | .inf _, .nan => .nan
  | .inf b1, .inf b2 => .inf (b1 == b2)
  | .inf b, .fin a => if a = 0 then .nan else .inf (b == decide (0 < a))
  | .fin _, .nan => .nan
  | .fin a, .inf b => if a = 0 then .nan else .inf (b == decide (0 < a))
  | .fin a, .fin b => .fin (a * b)

/-- Division: NaN propagates, inf/inf and 0/0 are NaN, finite/0 is a signed
infinity, finite/inf is 0, finite division is exact. -/
def F.div : F → F → F
  | .nan, _ => .nan
  | .inf _, .nan => .nan
  | .inf _, .inf _ => .nan
  | .inf b, .fin a => if a = 0 then .inf b else .inf (b == decide (0 < a))
  | .fin _, .nan => .nan
  | .fin _, .inf _ => .fin 0
  | .fin a, .fin b =>
    if b = 0 then (if a = 0 then .nan else .inf (decide (0 < a))) else .fin (a / b)

/-- A value is finite when it is neither NaN nor an infinity. -/
def F.isFinite : F → Bool
  | .fin _ => true
  | _ => false

/-- The rational carried by a finite value (0 for NaN and infinities). -/
def F.toQ : F → ℚ
  | .fin q => q
  | _ => 0

/-- The randomness source: a stream of values and the position of the next
draw.  One collaborator draw consumes one stream value. -/
structure Rng where
  stream : Nat → F
  pos : Nat

/-- Consume one value from the randomness source. -/
def Rng.next (r : Rng) : F × Rng := (r.stream r.pos, ⟨r.stream, r.pos + 1⟩)

/-- A collaborator request recorded in the sampling trace: which distribution
was constructed (and immediately drawn from) with which parameters. -/
inductive Req where
  | betaReq (a b : F)
  | gammaReq (shape scale : F)
deriving DecidableEq

/-- Whether a trace entry is a Beta request (stick-breaking path). -/
def Req.isBetaKind : Req → Bool
  | .betaReq _ _ => true
  | .gammaReq _ _ => false

/-- Error type returned from `Dirichlet::new` / `Dirichlet::new_with_size`. -/
inductive Error where
  | AlphaTooShort
  | AlphaTooSmall
  | SizeTooSmall
deriving DecidableEq

/-- The Dirichlet distribution: the validated concentration vector `alpha`. -/
structure Dirichlet where
  alpha : List F
deriving DecidableEq

/-- The validation loop of `Dirichlet::new`: `for &ai in alpha.iter()` returns
the error at the first element with `!(ai > 0.0)`; the construction succeeds
exactly when this check passes for every element. -/
def allPositive : List F → Bool
  | [] => true
  | a :: rest => if !(F.lt (F.fin 0) a) then false else allPositive rest

/-- `Dirichlet::new`: length checked first, then every element must satisfy
`ai > 0.0` (written so NaN fails the test). -/
def Dirichlet.new (alpha : List F) : Except Error Dirichlet :=
  if alpha.length < 2 then .error .AlphaTooShort
  else if !(allPositive alpha) then .error .AlphaTooSmall
  else .ok ⟨alpha⟩

/-- `Dirichlet::new_with_size`: the value check `alpha > 0.0` comes first,
then the size check, then the vector is `alpha` repeated `size` times. -/
def Dirichlet.new_with_size (alpha : F) (size : Nat) : Except Error Dirichlet :=
  if !(F.lt (F.fin 0) alpha) then .error .AlphaTooSmall
  else if size < 2 then .error .SizeTooSmall
  else .ok ⟨List.replicate size alpha⟩

/-- Modelled from the spec: the Beta collaborator distribution (its code is
not part of this component).  It only carries its two shape parameters. -/
structure Beta where
  a : F
  b : F

/-- Modelled from the spec: `Beta::new(a, b)` succeeds exactly when both shape
parameters are positive, which is the precondition stated for the collaborator. -/
def Beta.new (a b : F) : Option Beta :=
  if F.lt (F.fin 0) a && F.lt (F.fin 0) b then some ⟨a, b⟩ else none

/-- Modelled from the spec: drawing one beta variate consumes one value from
the shared randomness source; the collaborator is abstract, so the draw's
value is the source's next output. -/
def Beta.sample (_ : Beta) (r : Rng) : F × Rng := r.next

/-- Modelled from the spec: the Gamma collaborator distribution (its code is
not part of this component).  It carries its shape and scale parameters. -/
structure Gamma where
  shape : F
  scale : F

/-- Modelled from the spec: `Gamma::new(shape, scale)` succeeds exactly when
shape and scale are positive, which is the precondition stated for the
collaborator. -/
def Gamma.new (shape scale : F) : Option Gamma :=
  if F.lt (F.fin 0) shape && F.lt (F.fin 0) scale then some ⟨shape, scale⟩ else none

/-- Modelled from the spec: drawing one gamma variate consumes one value from
the shared randomness source. -/
def Gamma.sample (_ : Gamma) (r : Rng) : F × Rng := r.next

/-- The `scan` in `sample`: running sums of the list, starting from `acc`
(`*sum = *sum + *x; Some(*sum)`). -/
def scanAdd : F → List F → List F
  | _, [] => []
  | acc, x :: xs => (acc.add x) :: scanAdd (acc.add x) xs

/-- `alpha_sum_rl` of `sample`: skip the first element, reverse, take running
sums, reverse back. -/
def cumsumRL (alpha : List F) : List F :=
  (scanAdd (F.fin 0) (alpha.drop 1).reverse).reverse

/-- The stick-breaking loop of `sample`, over the zipped list of
`(alpha[i], alpha_sum_rl[i])` pairs, carrying `acc`.  Returns the written
sample prefix, the final `acc`, the trace of Beta requests, and the advanced
randomness source; `none` models the panic of `Beta::new(a, b).unwrap()`. -/
def stickLoop : List (F × F) → F → Rng → Option (List F × F × List Req × Rng)
  | [], acc, r => some ([], acc, [], r)
  | (a, b) :: rest, acc, r =>
    match Beta.new a b with
    | none => none
    | some d =>
      let res := d.sample r
      match stickLoop rest (acc.mul ((F.fin 1).sub res.1)) res.2 with
      | none => none
      | some (out, accF, tr, rF) =>
        some ((acc.mul res.1) :: out, accF, .betaReq a b :: tr, rF)

/-- The gamma loop of `sample`: one `Gamma::new(a, 1.0).unwrap().sample(rng)`
per element, in order.  Returns the raw gamma draws, the trace of Gamma
requests, and the advanced randomness source; `none` models the panic of
`unwrap()`. -/
def gammaLoop : List F → Rng → Option (List F × List Req × Rng)
  | [], r => some ([], [], r)
  | a :: rest, r =>
    match Gamma.new a (F.fin 1) with
    | none => none
    | some d =>
      let res := d.sample r
      match gammaLoop rest res.2 with
      | none => none
      | some (gs, tr, rF) => some (res.1 :: gs, .gammaReq a (F.fin 1) :: tr, rF)

/-- `Distribution::sample` for `Dirichlet`.  If all elements of `alpha` are
`<= 0.1` the stick-breaking path runs: the loop writes `samples[0..n-2]` and
`samples[n - 1] = acc` overwrites the last slot (an out-of-bounds panic when
`n = 0`, modelled by `none`).  Otherwise the gamma path runs: raw gamma draws
are summed left to right (`sum = sum + *s`), `invacc = 1 / sum` is computed
once, and every draw is multiplied by `invacc`. -/
def Dirichlet.sample (d : Dirichlet) (r : Rng) : Option (List F × List Req × Rng) :=
  let alpha := d.alpha
  if alpha.all (fun x => F.le x (F.fin (1/10))) then
    if alpha.length = 0 then none
    else
      match stickLoop (alpha.zip (cumsumRL alpha)) (F.fin 1) r with
      | none => none
      | some (out, acc, tr, rF) => some (out ++ [acc], tr, rF)
  else
    match gammaLoop alpha r with
    | none => none
    | some (gs, tr, rF) =>
      let sum := gs.foldl F.add (F.fin 0)
      let invacc := (F.fin 1).div sum
      some (gs.map (fun g => g.mul invacc), tr, rF)

/-- The values the randomness source would yield for its next `k` draws. -/
def drawVals (r : Rng) (k : Nat) : List F :=
  (List.range k).map (fun j => r.stream (r.pos + j))

/-- Sum of a list of values (right fold, zero-based). -/
def sumF (l : List F) : F := l.foldr F.add (F.fin 0)

/-- Follows the spec's words (stick-breaking, step 1): the reverse-exclusive
cumulative sum, the sum of the concentration values at indices `i+1 .. n-1`. -/
def specSuffixSum (alpha : List F) (i : Nat) : F := sumF (alpha.drop (i + 1))

/-- Follows the spec's words (stick-breaking, steps 2 to 4): given the beta
draw values, repeatedly peel `remaining * beta_i` off the stick, update
`remaining`, and finish with the leftover `remaining` as the last component. -/
def specStickBreak : F → List F → List F
  | remaining, [] => [remaining]
  | remaining, d :: ds =>
    (remaining.mul d) :: specStickBreak (remaining.mul ((F.fin 1).sub d)) ds

/-! ### Basic facts about the value type -/

@[simp]
lemma F.fin_add (a b : ℚ) : (F.fin a).add (F.fin b) = F.fin (a + b) := rfl

@[simp]
lemma F.fin_mul (a b : ℚ) : (F.fin a).mul (F.fin b) = F.fin (a * b) := rfl

@[simp]
lemma F.fin_sub (a b : ℚ) : (F.fin a).sub (F.fin b) = F.fin (a - b) := by
  simp [F.sub, F.neg, F.add, sub_eq_add_neg]

@[simp]
lemma F.lt_fin_fin (a b : ℚ) : F.lt (F.fin a) (F.fin b) = decide (a < b) := rfl

@[simp]
lemma F.le_fin_fin (a b : ℚ) : F.le (F.fin a) (F.fin b) = decide (a ≤ b) := rfl

lemma F.fin_div (a b : ℚ) (hb : b ≠ 0) : (F.fin a).div (F.fin b) = F.fin (a / b) := by
  simp [F.div, hb]

/-- The code's test `ai > 0.0` holds exactly when the IEEE test `ai <= 0.0`
fails and `ai` is not NaN. -/
lemma lt_zero_char (a : F) :
    F.lt (F.fin 0) a = true ↔ (F.le a (F.fin 0) = false ∧ a ≠ F.nan) := by
  cases a with
  | nan => simp [F.lt, F.le]
  | inf b => cases b <;> simp [F.lt, F.le]
  | fin q => simp [not_le]

/-- A positive value that is at most `0.1` is finite and its rational value
lies in `(0, 1/10]`. -/
lemma pos_small_fin {a : F} (hpos : F.lt (F.fin 0) a = true)
    (hsmall : F.le a (F.fin (1/10)) = true) :
    ∃ q : ℚ, a = F.fin q ∧ 0 < q ∧ q ≤ 1/10 := by
  cases a with
  | nan => simp [F.le] at hsmall
  | inf b => cases b <;> simp [F.lt, F.le] at hpos hsmall
  | fin q =>
    refine ⟨q, rfl, ?_, ?_⟩
    · simpa using hpos
    · simpa using hsmall

/-- A list all of whose members are finite is the `F.fin` image of its
rational values. -/
lemma eq_map_toQ {l : List F} (h : ∀ a ∈ l, ∃ q : ℚ, a = F.fin q) :
    l = (l.map F.toQ).map F.fin := by
  induction l with
  | nil => rfl
  | cons a rest ih =>
    obtain ⟨q, hq⟩ := h a (by simp)
    have htl := ih (fun x hx => h x (by simp [hx]))
    simpa [hq, F.toQ] using htl

/-! ### Constructor characterizations -/

lemma allPositive_iff (l : List F) :
    allPositive l = true ↔ ∀ a ∈ l, F.lt (F.fin 0) a = true := by
  induction l with
  | nil => simp [allPositive]
  | cons a rest ih =>
    cases hlt : F.lt (F.fin 0) a <;> simp [allPositive, hlt, ih]

lemma new_eq_ok {alpha : List F} {d : Dirichlet}
    (h : Dirichlet.new alpha = Except.ok d) :
    d.alpha = alpha ∧ 2 ≤ alpha.length ∧ ∀ a ∈ alpha, F.lt (F.fin 0) a = true := by
  unfold Dirichlet.new at h
  split at h
  · exact absurd h (by simp)
  · split at h
    · exact absurd h (by simp)
    · rename_i hlen hpos
      refine ⟨by injection h with h; exact congrArg Dirichlet.alpha h.symm, by omega, ?_⟩
      rw [← allPositive_iff]
      simpa using hpos

lemma new_with_size_eq_ok {a : F} {size : Nat} {d : Dirichlet}
    (h : Dirichlet.new_with_size a size = Except.ok d) :
    F.lt (F.fin 0) a = true ∧ 2 ≤ size ∧ d.alpha = List.replicate size a := by
  unfold Dirichlet.new_with_size at h
  split at h
  · exact absurd h (by simp)
  · split at h
    · exact absurd h (by simp)
    · rename_i hpos hsize
      refine ⟨by simpa using hpos, by omega, ?_⟩
      injection h with h
      exact congrArg Dirichlet.alpha h.symm

/-! ### The reverse cumulative sum -/

/-- Rational version of the running-sum scan. -/
def scanAddQ : ℚ → List ℚ → List ℚ
  | _, [] => []
  | acc, x :: xs => (acc + x) :: scanAddQ (acc + x) xs

lemma scanAddQ_append (acc : ℚ) (u v : List ℚ) :
    scanAddQ acc (u ++ v) = scanAddQ acc u ++ scanAddQ (acc + u.sum) v := by
  induction u generalizing acc with
  | nil => simp [scanAddQ]
  | cons x u ih => simp [scanAddQ, ih, add_assoc]

lemma scanAddQ_rev_spec (m : List ℚ) :
    (scanAddQ 0 m.reverse).reverse =
      (List.range m.length).map (fun i => (m.drop i).sum) := by
  induction m with
  | nil => simp [scanAddQ]
  | cons x xs ih =>
    rw [List.reverse_cons, scanAddQ_append, List.reverse_append, List.length_cons,
      List.range_succ_eq_map, List.map_cons]
    simp only [scanAddQ, List.reverse_cons, List.reverse_nil, List.nil_append,
      List.map_map, List.drop_zero, List.singleton_append]
    refine congrArg₂ _ ?_ ?_
    · rw [List.sum_reverse, List.sum_cons]
      ring
    · rw [ih]
      exact List.map_congr_left (fun i _ => by simp)

lemma scanAdd_map_fin (c : ℚ) (l : List ℚ) :
    scanAdd (F.fin c) (l.map F.fin) = (scanAddQ c l).map F.fin := by
  induction l generalizing c with
  | nil => rfl
  | cons x xs ih => simp [scanAdd, scanAddQ, ih]

lemma cumsumRL_map_fin (qs : List ℚ) :
    cumsumRL (qs.map F.fin) =
      (List.range (qs.length - 1)).map (fun i => F.fin ((qs.drop (i + 1)).sum)) := by
  unfold cumsumRL
  rw [← List.map_drop, ← List.map_reverse, scanAdd_map_fin, ← List.map_reverse,
    scanAddQ_rev_spec]
  simp only [List.map_map, List.length_drop]
  exact List.map_congr_left (fun i _ => by simp [List.drop_drop, Nat.add_comm])

lemma sumF_map_fin (l : List ℚ) : sumF (l.map F.fin) = F.fin l.sum := by
  induction l with
  | nil => rfl
  | cons x xs ih =>
    simp only [List.map_cons, sumF, List.foldr_cons] at ih ⊢
    rw [ih, F.fin_add, List.sum_cons]

lemma specSuffixSum_map_fin (qs : List ℚ) (i : Nat) :
    specSuffixSum (qs.map F.fin) i = F.fin ((qs.drop (i + 1)).sum) := by
  unfold specSuffixSum
  rw [← List.map_drop, sumF_map_fin]

/-! ### List utilities -/

lemma getD_map_fin (qs : List ℚ) (i : Nat) :
    (qs.map F.fin).getD i (F.fin 0) = F.fin (qs.getD i 0) := by
  induction qs generalizing i with
  | nil => simp [List.getD]
  | cons x xs ih => cases i <;> simp [ih]

lemma zip_map_range {α β : Type} (l : List α) (g : Nat → β) (d : α) :
    ∀ k, k ≤ l.length →
      l.zip ((List.range k).map g) =
        (List.range k).map (fun i => (l.getD i d, g i)) := by
  induction l generalizing g with
  | nil =>
    intro k hk
    have : k = 0 := by simpa using hk
    simp [this]
  | cons x xs ih =>
    intro k hk
    cases k with
    | zero => simp
    | succ k' =>
      rw [List.range_succ_eq_map, List.map_cons, List.map_map, List.zip_cons_cons,
        ih (g ∘ Nat.succ) k' (by simpa using hk), List.map_cons, List.map_map]
      refine congrArg₂ _ (by simp) ?_
      exact List.map_congr_left (fun i _ => by simp [Function.comp])

lemma drawVals_succ (r : Rng) (k : Nat) :
    drawVals r (k + 1) = r.stream r.pos :: drawVals ⟨r.stream, r.pos + 1⟩ k := by
  unfold drawVals
  rw [List.range_succ_eq_map, List.map_cons, List.map_map]
  refine congrArg₂ _ (by simp) ?_
  exact List.map_congr_left (fun i _ => by simp [Nat.add_comm, Nat.add_assoc, Nat.add_left_comm])

@[simp]
lemma drawVals_length (r : Rng) (k : Nat) : (drawVals r k).length = k := by
  simp [drawVals]

/-! ### Loop characterizations -/

lemma beta_new_pos {a b : F} (ha : F.lt (F.fin 0) a = true)
    (hb : F.lt (F.fin 0) b = true) : Beta.new a b = some ⟨a, b⟩ := by
  simp [Beta.new, ha, hb]

lemma gamma_new_pos {a : F} (ha : F.lt (F.fin 0) a = true) :
    Gamma.new a (F.fin 1) = some ⟨a, F.fin 1⟩ := by
  simp [Gamma.new, ha]

/-- The leftover stick length (`acc`) after the given beta draw values. -/
def breakAcc : F → List F → F
  | remaining, [] => remaining
  | remaining, d :: ds => breakAcc (remaining.mul ((F.fin 1).sub d)) ds

lemma stickLoop_spec (pairs : List (F × F)) :
    ∀ (acc : F) (r : Rng),
      (∀ p ∈ pairs, F.lt (F.fin 0) p.1 = true ∧ F.lt (F.fin 0) p.2 = true) →
      ∃ out : List F,
        stickLoop pairs acc r =
          some (out, breakAcc acc (drawVals r pairs.length),
                pairs.map (fun p => Req.betaReq p.1 p.2),
                ⟨r.stream, r.pos + pairs.length⟩) ∧
        out ++ [breakAcc acc (drawVals r pairs.length)] =
          specStickBreak acc (drawVals r pairs.length) := by
  induction pairs with
  | nil =>
    intro acc r _
    exact ⟨[], by simp [stickLoop, drawVals, breakAcc], by simp [drawVals, breakAcc, specStickBreak]⟩
  | cons p rest ih =>
    intro acc r h
    obtain ⟨a, b⟩ := p
    obtain ⟨ha, hb⟩ := h (a, b) (by simp)
    obtain ⟨out, heq, hspec⟩ :=
      ih (acc.mul ((F.fin 1).sub (r.stream r.pos))) ⟨r.stream, r.pos + 1⟩
        (fun q hq => h q (List.mem_cons_of_mem _ hq))
    refine ⟨(acc.mul (r.stream r.pos)) :: out, ?_, ?_⟩
    · rw [List.length_cons, drawVals_succ]
      simp only [stickLoop, beta_new_pos ha hb, Beta.sample, Rng.next, breakAcc, heq,
        List.map_cons]
      refine congrArg _ (congrArg _ (congrArg _ (congrArg _ ?_)))
      refine congrArg₂ _ rfl ?_
      omega
    · rw [List.length_cons, drawVals_succ, specStickBreak]
      simp only [breakAcc, List.cons_append]
      exact congrArg _ hspec

lemma gammaLoop_spec (l : List F) :
    ∀ r : Rng, (∀ a ∈ l, F.lt (F.fin 0) a = true) →
      gammaLoop l r = some (drawVals r l.length,
                            l.map (fun a => Req.gammaReq a (F.fin 1)),
                            ⟨r.stream, r.pos + l.length⟩) := by
  induction l with
  | nil => intro r _; simp [gammaLoop, drawVals]
  | cons a rest ih =>
    intro r h
    rw [List.length_cons, drawVals_succ]
    have harith : r.pos + 1 + rest.length = r.pos + (rest.length + 1) := by omega
    simp only [gammaLoop, gamma_new_pos (h a (by simp)), Gamma.sample, Rng.next,
      ih ⟨r.stream, r.pos + 1⟩ (fun x hx => h x (List.mem_cons_of_mem _ hx)),
      List.map_cons]
    rw [harith]

/-! ### Full evaluations of the two sampling paths -/

lemma sample_stick_eq (d : Dirichlet) (r : Rng) (qs : List ℚ)
    (halpha : d.alpha = qs.map F.fin) (hlen : 2 ≤ qs.length)
    (hpos : ∀ q ∈ qs, 0 < q) (hsmall : ∀ q ∈ qs, q ≤ 1/10) :
    d.sample r = some
      (specStickBreak (F.fin 1) (drawVals r (qs.length - 1)),
       (List.range (qs.length - 1)).map
         (fun i => Req.betaReq (F.fin (qs.getD i 0)) (F.fin ((qs.drop (i + 1)).sum))),
       ⟨r.stream, r.pos + (qs.length - 1)⟩) := by
  have hall : (qs.map F.fin).all (fun x => F.le x (F.fin (1/10))) = true := by
    rw [List.all_eq_true]
    intro x hx
    obtain ⟨q, hq, rfl⟩ := List.mem_map.mp hx
    simpa using hsmall q hq
  have hzip : (qs.map F.fin).zip (cumsumRL (qs.map F.fin)) =
      (List.range (qs.length - 1)).map
        (fun i => (F.fin (qs.getD i 0), F.fin ((qs.drop (i + 1)).sum))) := by
    rw [cumsumRL_map_fin,
      zip_map_range (qs.map F.fin) (fun i => F.fin ((qs.drop (i + 1)).sum)) (F.fin 0)
        (qs.length - 1) (by simp)]
    exact List.map_congr_left (fun i _ => by rw [getD_map_fin])
  have hpairs : ∀ p ∈ (List.range (qs.length - 1)).map
      (fun i => (F.fin (qs.getD i 0), F.fin ((qs.drop (i + 1)).sum))),
      F.lt (F.fin 0) p.1 = true ∧ F.lt (F.fin 0) p.2 = true := by
    intro p hp
    obtain ⟨i, hi, rfl⟩ := List.mem_map.mp hp
    have hi' : i < qs.length - 1 := List.mem_range.mp hi
    constructor
    · have hilt : i < qs.length := by omega
      have hgd : qs.getD i 0 = qs[i] := List.getD_eq_getElem qs 0 hilt
      simp only [F.lt_fin_fin, hgd, decide_eq_true_eq]
      exact hpos _ (List.getElem_mem _)
    · simp only [F.lt_fin_fin, decide_eq_true_eq]
      refine List.sum_pos _ (fun x hx => hpos x (List.mem_of_mem_drop hx)) ?_
      have : (qs.drop (i + 1)).length = qs.length - (i + 1) := List.length_drop _ _
      intro hnil
      rw [hnil] at this
      simp at this
      omega
  obtain ⟨out, heq, hspec⟩ :=
    stickLoop_spec ((qs.map F.fin).zip (cumsumRL (qs.map F.fin))) (F.fin 1) r
      (by rw [hzip]; exact hpairs)
  have hzlen : ((qs.map F.fin).zip (cumsumRL (qs.map F.fin))).length = qs.length - 1 := by
    rw [hzip]
    simp
  rw [hzlen] at heq hspec
  rw [hzip] at heq
  have hne : ¬(d.alpha.length = 0) := by
    rw [halpha]
    simp only [List.length_map]
    omega
  have hall' : d.alpha.all (fun x => F.le x (F.fin (1/10))) = true := by
    rw [halpha]
    exact hall
  simp only [Dirichlet.sample]
  rw [if_pos hall', if_neg hne, halpha, hzip]
  simp only [heq, hspec, List.map_map]
  rfl

lemma sample_gamma_eq (d : Dirichlet) (r : Rng)
    (hpos : ∀ a ∈ d.alpha, F.lt (F.fin 0) a = true)
    (hbig : d.alpha.all (fun x => F.le x (F.fin (1/10))) = false) :
    d.sample r = some
      ((drawVals r d.alpha.length).map
         (fun g => g.mul ((F.fin 1).div ((drawVals r d.alpha.length).foldl F.add (F.fin 0)))),
       d.alpha.map (fun a => Req.gammaReq a (F.fin 1)),
       ⟨r.stream, r.pos + d.alpha.length⟩) := by
  simp only [Dirichlet.sample, hbig, Bool.false_eq_true, if_false,
    gammaLoop_spec d.alpha r hpos]

/-! ### Numerical facts about the two paths -/

lemma specStickBreak_length (rem : F) (ds : List F) :
    (specStickBreak rem ds).length = ds.length + 1 := by
  induction ds generalizing rem with
  | nil => rfl
  | cons d ds ih => simp [specStickBreak, ih]

lemma specStickBreak_mem {p : ℚ} (hp0 : 0 < p) (hp1 : p < 1) {ds : List F}
    (hds : ∀ x ∈ ds, ∃ q : ℚ, x = F.fin q ∧ 0 < q ∧ q < 1) :
    ∀ x ∈ specStickBreak (F.fin p) ds, ∃ q : ℚ, x = F.fin q ∧ 0 < q ∧ q < 1 := by
  induction ds generalizing p with
  | nil =>
    intro x hx
    rw [specStickBreak, List.mem_singleton] at hx
    exact ⟨p, hx, hp0, hp1⟩
  | cons d ds ih =>
    intro x hx
    obtain ⟨q, rfl, hq0, hq1⟩ := hds d (by simp)
    rw [specStickBreak, List.mem_cons] at hx
    rcases hx with rfl | hx
    · exact ⟨p * q, by simp, by positivity, by nlinarith⟩
    · have hrec0 : (0 : ℚ) < p * (1 - q) := mul_pos hp0 (by linarith)
      have hrec1 : p * (1 - q) < 1 := by nlinarith
      exact ih hrec0 hrec1 (fun y hy => hds y (by simp [hy])) x (by simpa using hx)

lemma specStickBreak_sum {ds : List F} (hds : ∀ x ∈ ds, ∃ q : ℚ, x = F.fin q) :
    ∀ p : ℚ, sumF (specStickBreak (F.fin p) ds) = F.fin p := by
  induction ds with
  | nil =>
    intro p
    simp [specStickBreak, sumF]
  | cons d ds ih =>
    intro p
    obtain ⟨q, rfl⟩ := hds d (by simp)
    have := ih (fun y hy => hds y (by simp [hy])) (p * (1 - q))
    simp only [specStickBreak, F.fin_sub, F.fin_mul, sumF, List.foldr_cons] at this ⊢
    rw [this, F.fin_add]
    ring_nf

lemma foldl_add_map_fin (l : List ℚ) :
    ∀ c : ℚ, (l.map F.fin).foldl F.add (F.fin c) = F.fin (c + l.sum) := by
  induction l with
  | nil => intro c; simp [sumF]
  | cons x xs ih =>
    intro c
    simp only [List.map_cons, List.foldl_cons, F.fin_add, ih, List.sum_cons]
    rw [add_assoc]

lemma elem_lt_sum {l : List ℚ} (hpos : ∀ q ∈ l, 0 < q) (hlen : 2 ≤ l.length)
    {q : ℚ} (hq : q ∈ l) : q < l.sum := by
  obtain ⟨s, t, rfl⟩ := List.append_of_mem hq
  rw [List.sum_append, List.sum_cons]
  rcases s with _ | ⟨y, s'⟩
  · have hne : t ≠ [] := by
      intro h
      rw [h] at hlen
      simp at hlen
    have hpt := List.sum_pos t (fun x hx => hpos x (by simp [hx])) hne
    simp only [List.nil_append, List.sum_nil]
    linarith
  · have hy := hpos y (by simp)
    have hs' : 0 ≤ s'.sum :=
      List.sum_nonneg (fun x hx => le_of_lt (hpos x (by simp [hx])))
    have ht : 0 ≤ t.sum :=
      List.sum_nonneg (fun x hx => le_of_lt (hpos x (by simp [hx])))
    rw [List.sum_cons]
    linarith

lemma sum_map_mul_const (l : List ℚ) (c : ℚ) :
    (l.map (fun x => x * c)).sum = l.sum * c := by
  induction l with
  | nil => simp
  | cons x xs ih =>
    simp only [List.map_cons, List.sum_cons, ih]
    ring

/-! ### Claim theorems: construction -/

/-- C5: construction from an explicit vector fails with the vector-too-short
error (`AlphaTooShort`) when fewer than 2 elements are supplied; otherwise it
fails with the value-not-positive error (`AlphaTooSmall`) when some element is
`<= 0` or NaN; otherwise it succeeds with a parameter object holding a copy of
the input vector. -/
theorem spec_c5_new_contract (alpha : List F) :
    (alpha.length < 2 → Dirichlet.new alpha = Except.error Error.AlphaTooShort) ∧
    (2 ≤ alpha.length →
      (∃ a ∈ alpha, F.le a (F.fin 0) = true ∨ a = F.nan) →
      Dirichlet.new alpha = Except.error Error.AlphaTooSmall) ∧
    (2 ≤ alpha.length →
      (∀ a ∈ alpha, F.le a (F.fin 0) = false ∧ a ≠ F.nan) →
      Dirichlet.new alpha = Except.ok ⟨alpha⟩) := by
  refine ⟨fun h => by simp [Dirichlet.new, h], fun hlen hbad => ?_, fun hlen hgood => ?_⟩
  · obtain ⟨a, ha, hcase⟩ := hbad
    have hlt : ¬(F.lt (F.fin 0) a = true) := by
      rw [lt_zero_char]
      rcases hcase with h | rfl
      · intro hc
        rw [hc.1] at h
        exact Bool.false_ne_true h
      · intro hc
        exact hc.2 rfl
    have hnp : allPositive alpha = false :=
      Bool.eq_false_iff.mpr (fun hp => hlt ((allPositive_iff alpha).mp hp a ha))
    simp [Dirichlet.new, hnp]
    omega
  · have hp : allPositive alpha = true :=
      (allPositive_iff alpha).mpr
        (fun a ha => (lt_zero_char a).mpr ⟨(hgood a ha).1, (hgood a ha).2⟩)
    simp [Dirichlet.new, hp]
    omega

/-- C5 witness: the contract evaluated at concrete vectors. -/
theorem spec_c5_new_contract_w :
    Dirichlet.new [F.fin 1] = Except.error Error.AlphaTooShort ∧
    Dirichlet.new [F.fin 1, F.nan] = Except.error Error.AlphaTooSmall ∧
    Dirichlet.new [F.fin 1, F.fin (-1)] = Except.error Error.AlphaTooSmall ∧
    Dirichlet.new [F.fin 1, F.fin 2] = Except.ok ⟨[F.fin 1, F.fin 2]⟩ :=
  ⟨(spec_c5_new_contract [F.fin 1]).1 (by decide),
   (spec_c5_new_contract [F.fin 1, F.nan]).2.1 (by decide)
     ⟨F.nan, by decide, by decide⟩,
   (spec_c5_new_contract [F.fin 1, F.fin (-1)]).2.1 (by decide)
     ⟨F.fin (-1), by decide, by decide⟩,
   (spec_c5_new_contract [F.fin 1, F.fin 2]).2.2 (by decide) (by decide)⟩

/-- C6: construction from a scalar and a size fails with the
value-not-positive error (`AlphaTooSmall`) when the scalar is `<= 0` or NaN,
fails with `SizeTooSmall` when `size < 2`, and otherwise succeeds with the
scalar repeated `size` times. -/
theorem spec_c6_new_with_size_contract (a : F) (size : Nat) :
    ((F.le a (F.fin 0) = true ∨ a = F.nan) →
      Dirichlet.new_with_size a size = Except.error Error.AlphaTooSmall) ∧
    (F.le a (F.fin 0) = false → a ≠ F.nan → size < 2 →
      Dirichlet.new_with_size a size = Except.error Error.SizeTooSmall) ∧
    (F.le a (F.fin 0) = false → a ≠ F.nan → 2 ≤ size →
      Dirichlet.new_with_size a size = Except.ok ⟨List.replicate size a⟩) := by
  refine ⟨fun hbad => ?_, fun hle hnan hsize => ?_, fun hle hnan hsize => ?_⟩
  · have hlt : ¬(F.lt (F.fin 0) a = true) := by
      rw [lt_zero_char]
      rcases hbad with h | rfl
      · intro hc
        rw [hc.1] at h
        exact Bool.false_ne_true h
      · intro hc
        exact hc.2 rfl
    have hlt' : F.lt (F.fin 0) a = false := Bool.eq_false_iff.mpr hlt
    simp [Dirichlet.new_with_size, hlt']
  · have hlt : F.lt (F.fin 0) a = true := (lt_zero_char a).mpr ⟨hle, hnan⟩
    simp [Dirichlet.new_with_size, hlt, hsize]
  · have hlt : F.lt (F.fin 0) a = true := (lt_zero_char a).mpr ⟨hle, hnan⟩
    simp [Dirichlet.new_with_size, hlt]
    omega

/-- C6 witness: the contract evaluated at the spec's concrete examples. -/
theorem spec_c6_new_with_size_contract_w :
    Dirichlet.new_with_size (F.fin 0) 2 = Except.error Error.AlphaTooSmall ∧
    Dirichlet.new_with_size (F.fin (1/2)) 1 = Except.error Error.SizeTooSmall ∧
    Dirichlet.new_with_size (F.fin (1/2)) 3 =
      Except.ok ⟨List.replicate 3 (F.fin (1/2))⟩ :=
  ⟨(spec_c6_new_with_size_contract (F.fin 0) 2).1 (Or.inl (by decide)),
   (spec_c6_new_with_size_contract (F.fin (1/2)) 1).2.1 (by norm_num) (by decide) (by decide),
   (spec_c6_new_with_size_contract (F.fin (1/2)) 3).2.2 (by norm_num) (by decide) (by decide)⟩

/-- C10: in `new_with_size` the value check precedes the size check, so a bad
scalar together with a bad size reports `AlphaTooSmall`; in `new` the length
check precedes the value check, so a one-element vector with a bad value
reports `AlphaTooShort`. -/
theorem spec_c10_check_order :
    (∀ (a : F) (size : Nat), F.lt (F.fin 0) a = false → size < 2 →
      Dirichlet.new_with_size a size = Except.error Error.AlphaTooSmall) ∧
    (∀ a : F, F.lt (F.fin 0) a = false →
      Dirichlet.new [a] = Except.error Error.AlphaTooShort) := by
  constructor
  · intro a size ha _
    simp [Dirichlet.new_with_size, ha]
  · intro a _
    simp [Dirichlet.new]

/-- C10 witness: the check order evaluated at a doubly-invalid input. -/
theorem spec_c10_check_order_w :
    Dirichlet.new_with_size (F.fin 0) 1 = Except.error Error.AlphaTooSmall ∧
    Dirichlet.new [F.fin 0] = Except.error Error.AlphaTooShort :=
  ⟨spec_c10_check_order.1 (F.fin 0) 1 (by decide) (by decide),
   spec_c10_check_order.2 (F.fin 0) (by decide)⟩

/-- C7 counterexample: positive infinity passes both constructors, so a
successfully constructed parameter object can hold a non-finite element; the
claimed invariant "every element is finite" does not hold, and the constructors
do not reject positive infinity. -/
theorem spec_c7_counterexample :
    Dirichlet.new [F.inf true, F.inf true] = Except.ok ⟨[F.inf true, F.inf true]⟩ ∧
    Dirichlet.new_with_size (F.inf true) 2 = Except.ok ⟨[F.inf true, F.inf true]⟩ ∧
    (F.inf true).isFinite = false := by
  refine ⟨rfl, rfl, rfl⟩

/-- C7 (amended): every element of a successfully constructed parameter object
is strictly greater than zero under the IEEE ordered comparison (in particular
it is not NaN and not a non-positive value), but it need not be finite. -/
theorem spec_c7_amended (alpha : List F) (a : F) (size : Nat) (d1 d2 : Dirichlet)
    (h1 : Dirichlet.new alpha = Except.ok d1)
    (h2 : Dirichlet.new_with_size a size = Except.ok d2) :
    (∀ x ∈ d1.alpha, F.lt (F.fin 0) x = true ∧ x ≠ F.nan) ∧
    (∀ x ∈ d2.alpha, F.lt (F.fin 0) x = true ∧ x ≠ F.nan) := by
  obtain ⟨hd1, _, hpos1⟩ := new_eq_ok h1
  obtain ⟨hpos2, _, hd2⟩ := new_with_size_eq_ok h2
  constructor
  · intro x hx
    rw [hd1] at hx
    exact ⟨hpos1 x hx, ((lt_zero_char x).mp (hpos1 x hx)).2⟩
  · intro x hx
    rw [hd2] at hx
    obtain rfl := List.eq_of_mem_replicate hx
    exact ⟨hpos2, ((lt_zero_char x).mp hpos2).2⟩

/-- C7 (amended) witness: the invariant evaluated at concrete constructions. -/
theorem spec_c7_amended_w :
    (∀ x ∈ (Dirichlet.mk [F.fin 1, F.fin 2]).alpha,
      F.lt (F.fin 0) x = true ∧ x ≠ F.nan) ∧
    (∀ x ∈ (Dirichlet.mk (List.replicate 2 (F.fin (1/2)))).alpha,
      F.lt (F.fin 0) x = true ∧ x ≠ F.nan) :=
  spec_c7_amended [F.fin 1, F.fin 2] (F.fin (1/2)) 2 _ _ rfl
    (by norm_num [Dirichlet.new_with_size])

/-- C9: sampling is deterministic: the randomness source is the only source of
non-determinism, so two sample calls from identical source states produce
identical outputs (and traces and final source states). -/
theorem spec_c9_deterministic (d : Dirichlet) (r1 r2 : Rng)
    (hs : r1.stream = r2.stream) (hp : r1.pos = r2.pos) :
    d.sample r1 = d.sample r2 := by
  obtain ⟨s1, p1⟩ := r1
  obtain ⟨s2, p2⟩ := r2
  cases hs
  cases hp
  rfl

/-- C9 witness: determinism evaluated at a concrete distribution and source. -/
theorem spec_c9_deterministic_w :
    (Dirichlet.mk [F.fin 1, F.fin 2]).sample ⟨fun _ => F.fin (1/2), 0⟩ =
      (Dirichlet.mk [F.fin 1, F.fin 2]).sample ⟨fun _ => F.fin (1/2), 0⟩ :=
  spec_c9_deterministic (Dirichlet.mk [F.fin 1, F.fin 2])
    ⟨fun _ => F.fin (1/2), 0⟩ ⟨fun _ => F.fin (1/2), 0⟩ rfl rfl

/-! ### Claim theorems: sampling -/

/-- From a valid construction whose vector is entirely `<= 0.1`, extract the
underlying rational vector. -/
lemma valid_small_extract {alpha : List F} {d : Dirichlet}
    (hvalid : Dirichlet.new alpha = Except.ok d)
    (hsmall : alpha.all (fun x => F.le x (F.fin (1/10))) = true) :
    ∃ qs : List ℚ, alpha = qs.map F.fin ∧ 2 ≤ qs.length ∧
      (∀ q ∈ qs, 0 < q) ∧ (∀ q ∈ qs, q ≤ 1/10) := by
  obtain ⟨_, hlen, hpos⟩ := new_eq_ok hvalid
  have hfin : ∀ a ∈ alpha, ∃ q : ℚ, a = F.fin q ∧ 0 < q ∧ q ≤ 1/10 := by
    intro a ha
    exact pos_small_fin (hpos a ha) (List.all_eq_true.mp hsmall a ha)
  refine ⟨alpha.map F.toQ, eq_map_toQ (fun a ha => (hfin a ha).imp (fun q hq => hq.1)),
    by simpa using hlen, ?_, ?_⟩
  · intro q hq
    obtain ⟨a, ha, rfl⟩ := List.mem_map.mp hq
    obtain ⟨q', heq, h0, _⟩ := hfin a ha
    subst heq
    simpa [F.toQ] using h0
  · intro q hq
    obtain ⟨a, ha, rfl⟩ := List.mem_map.mp hq
    obtain ⟨q', heq, _, h1⟩ := hfin a ha
    subst heq
    simpa [F.toQ] using h1

/-- C1: for every validly constructed parameter object, sampling uses the
stick-breaking strategy exactly when every element of `alpha` is `<= 0.1`:
in that case the trace consists of `n - 1` Beta requests, and otherwise
(some element `> 0.1`) it consists of `n` Gamma requests. -/
theorem spec_c1_dispatch (alpha : List F) (d : Dirichlet) (r : Rng)
    (hvalid : Dirichlet.new alpha = Except.ok d) :
    ∃ out tr rF, d.sample r = some (out, tr, rF) ∧
      (alpha.all (fun x => F.le x (F.fin (1/10))) = true →
        tr.length = alpha.length - 1 ∧ ∀ t ∈ tr, t.isBetaKind = true) ∧
      (alpha.all (fun x => F.le x (F.fin (1/10))) = false →
        tr.length = alpha.length ∧ ∀ t ∈ tr, t.isBetaKind = false) := by
  obtain ⟨hd, hlen, hpos⟩ := new_eq_ok hvalid
  cases hsm : alpha.all (fun x => F.le x (F.fin (1/10))) with
  | true =>
    obtain ⟨qs, hq, hql, hqp, hqs⟩ := valid_small_extract hvalid hsm
    refine ⟨_, _, _, sample_stick_eq d r qs (by rw [hd, hq]) hql hqp hqs,
      fun _ => ⟨?_, ?_⟩, fun hcontra => by simp [hsm] at hcontra⟩
    · simp [hq]
    · intro t ht
      obtain ⟨i, _, rfl⟩ := List.mem_map.mp ht
      rfl
  | false =>
    refine ⟨_, _, _,
      sample_gamma_eq d r (by rw [hd]; exact hpos) (by rw [hd]; exact hsm),
      fun hcontra => by simp [hsm] at hcontra, fun _ => ⟨?_, ?_⟩⟩
    · simp [hd]
    · intro t ht
      obtain ⟨a, _, rfl⟩ := List.mem_map.mp ht
      rfl

/-- C1 witness: the dispatch evaluated at a concrete gamma-path distribution. -/
theorem spec_c1_dispatch_w :
    ∃ out tr rF,
      (Dirichlet.mk [F.fin 1, F.fin 2]).sample ⟨fun _ => F.fin 1, 0⟩ = some (out, tr, rF) ∧
      (([F.fin 1, F.fin 2] : List F).all (fun x => F.le x (F.fin (1/10))) = true →
        tr.length = ([F.fin 1, F.fin 2] : List F).length - 1 ∧
        ∀ t ∈ tr, t.isBetaKind = true) ∧
      (([F.fin 1, F.fin 2] : List F).all (fun x => F.le x (F.fin (1/10))) = false →
        tr.length = ([F.fin 1, F.fin 2] : List F).length ∧
        ∀ t ∈ tr, t.isBetaKind = false) :=
  spec_c1_dispatch [F.fin 1, F.fin 2] ⟨[F.fin 1, F.fin 2]⟩ ⟨fun _ => F.fin 1, 0⟩ rfl

/-- C2: on the stick-breaking path (valid construction, all elements
`<= 0.1`), one draw computes the reverse-exclusive suffix sums, makes exactly
`n - 1` Beta(`a[i]`, `b[i]`) draws in increasing index order (consuming one
stream value each, left to right), produces the outputs
`sample[i] = remaining * beta_i` with `remaining` updated by `1 - beta_i`,
and finishes with `sample[n-1] = remaining` without a further draw. -/
theorem spec_c2_stick_breaking (alpha : List F) (d : Dirichlet) (r : Rng)
    (hvalid : Dirichlet.new alpha = Except.ok d)
    (hsmall : alpha.all (fun x => F.le x (F.fin (1/10))) = true) :
    d.sample r = some
      (specStickBreak (F.fin 1)
        ((List.range (alpha.length - 1)).map (fun j => r.stream (r.pos + j))),
       (List.range (alpha.length - 1)).map
         (fun i => Req.betaReq (alpha.getD i (F.fin 0)) (specSuffixSum alpha i)),
       ⟨r.stream, r.pos + (alpha.length - 1)⟩) := by
  obtain ⟨hd, _, _⟩ := new_eq_ok hvalid
  obtain ⟨qs, hq, hql, hqp, hqs⟩ := valid_small_extract hvalid hsmall
  rw [sample_stick_eq d r qs (by rw [hd, hq]) hql hqp hqs]
  subst hq
  refine congrArg some ?_
  rw [List.length_map]
  refine congrArg₂ _ rfl (congrArg₂ _ ?_ rfl)
  exact List.map_congr_left (fun i _ => by rw [getD_map_fin, specSuffixSum_map_fin])

/-- C2 witness: the stick-breaking path evaluated at a concrete input. -/
theorem spec_c2_stick_breaking_w :
    (Dirichlet.mk [F.fin (1/20), F.fin (1/20)]).sample ⟨fun _ => F.fin (1/2), 0⟩ = some
      (specStickBreak (F.fin 1)
        ((List.range (([F.fin (1/20), F.fin (1/20)] : List F).length - 1)).map
          (fun j => Rng.stream ⟨fun _ => F.fin (1/2), 0⟩ (Rng.pos ⟨fun _ => F.fin (1/2), 0⟩ + j))),
       (List.range (([F.fin (1/20), F.fin (1/20)] : List F).length - 1)).map
         (fun i => Req.betaReq (([F.fin (1/20), F.fin (1/20)] : List F).getD i (F.fin 0))
           (specSuffixSum [F.fin (1/20), F.fin (1/20)] i)),
       ⟨Rng.stream ⟨fun _ => F.fin (1/2), 0⟩,
        Rng.pos ⟨fun _ => F.fin (1/2), 0⟩ +
          (([F.fin (1/20), F.fin (1/20)] : List F).length - 1)⟩) :=
  spec_c2_stick_breaking [F.fin (1/20), F.fin (1/20)] ⟨[F.fin (1/20), F.fin (1/20)]⟩
    ⟨fun _ => F.fin (1/2), 0⟩ (by norm_num [Dirichlet.new, allPositive]) (by norm_num)

/-- C3: on the gamma-normalization path (valid construction, some element
`> 0.1`), one draw makes exactly `n` Gamma(`a[i]`, 1) draws in increasing
index order (one stream value each), sums them left to right, computes the
reciprocal of the sum once, and outputs each draw multiplied by that
reciprocal. -/
theorem spec_c3_gamma_normalization (alpha : List F) (d : Dirichlet) (r : Rng)
    (hvalid : Dirichlet.new alpha = Except.ok d)
    (hbig : alpha.all (fun x => F.le x (F.fin (1/10))) = false) :
    d.sample r = some
      ((drawVals r alpha.length).map
        (fun g => g.mul ((F.fin 1).div ((drawVals r alpha.length).foldl F.add (F.fin 0)))),
       alpha.map (fun a => Req.gammaReq a (F.fin 1)),
       ⟨r.stream, r.pos + alpha.length⟩) := by
  obtain ⟨hd, _, hpos⟩ := new_eq_ok hvalid
  rw [sample_gamma_eq d r (by rw [hd]; exact hpos) (by rw [hd]; exact hbig), hd]

/-- C3 witness: the gamma path evaluated at a concrete input. -/
theorem spec_c3_gamma_normalization_w :
    (Dirichlet.mk [F.fin 1, F.fin 2]).sample ⟨fun _ => F.fin 1, 0⟩ = some
      ((drawVals ⟨fun _ => F.fin 1, 0⟩ ([F.fin 1, F.fin 2] : List F).length).map
        (fun g => g.mul ((F.fin 1).div
          ((drawVals ⟨fun _ => F.fin 1, 0⟩ ([F.fin 1, F.fin 2] : List F).length).foldl
            F.add (F.fin 0)))),
       ([F.fin 1, F.fin 2] : List F).map (fun a => Req.gammaReq a (F.fin 1)),
       ⟨Rng.stream ⟨fun _ => F.fin 1, 0⟩,
        Rng.pos ⟨fun _ => F.fin 1, 0⟩ + ([F.fin 1, F.fin 2] : List F).length⟩) :=
  spec_c3_gamma_normalization [F.fin 1, F.fin 2] ⟨[F.fin 1, F.fin 2]⟩
    ⟨fun _ => F.fin 1, 0⟩ rfl (by norm_num)

/-- C8: for a validly constructed parameter object the sample operation never
panics: every internal `Beta::new` / `Gamma::new` construction succeeds (its
arguments are positive), so sampling always returns a value. -/
theorem spec_c8_unwrap_safe (alpha : List F) (d : Dirichlet) (r : Rng)
    (hvalid : Dirichlet.new alpha = Except.ok d) :
    (d.sample r).isSome = true := by
  obtain ⟨hd, hlen, hpos⟩ := new_eq_ok hvalid
  cases hsm : alpha.all (fun x => F.le x (F.fin (1/10))) with
  | true =>
    obtain ⟨qs, hq, hql, hqp, hqs⟩ := valid_small_extract hvalid hsm
    rw [sample_stick_eq d r qs (by rw [hd, hq]) hql hqp hqs]
    rfl
  | false =>
    rw [sample_gamma_eq d r (by rw [hd]; exact hpos) (by rw [hd]; exact hsm)]
    rfl

/-- C8 witness: sampling succeeds at a concrete valid construction. -/
theorem spec_c8_unwrap_safe_w :
    ((Dirichlet.mk [F.fin 1, F.fin 2]).sample ⟨fun _ => F.fin 1, 0⟩).isSome = true :=
  spec_c8_unwrap_safe [F.fin 1, F.fin 2] ⟨[F.fin 1, F.fin 2]⟩ ⟨fun _ => F.fin 1, 0⟩ rfl

/-! ### Well-formedness of the output vector -/

lemma gamma_out_eq (ws : List ℚ) (hS : ws.sum ≠ 0) :
    (ws.map F.fin).map
        (fun g => g.mul ((F.fin 1).div ((ws.map F.fin).foldl F.add (F.fin 0)))) =
      (ws.map (fun w => w * (1 / ws.sum))).map F.fin := by
  rw [foldl_add_map_fin, zero_add, F.fin_div _ _ hS, List.map_map, List.map_map]
  exact List.map_congr_left (fun w _ => by simp)

lemma gamma_norm_mem (ws : List ℚ) (hpos : ∀ w ∈ ws, 0 < w) (hlen : 2 ≤ ws.length) :
    ∀ x ∈ (ws.map (fun w => w * (1 / ws.sum))).map F.fin,
      ∃ q : ℚ, x = F.fin q ∧ 0 < q ∧ q < 1 := by
  have hS : 0 < ws.sum :=
    List.sum_pos ws hpos (by intro h; rw [h] at hlen; simp at hlen)
  intro x hx
  obtain ⟨y, hy, rfl⟩ := List.mem_map.mp hx
  obtain ⟨w, hw, rfl⟩ := List.mem_map.mp hy
  refine ⟨w * (1 / ws.sum), rfl, mul_pos (hpos w hw) (by positivity), ?_⟩
  rw [mul_one_div]
  exact (div_lt_one hS).mpr (elem_lt_sum hpos hlen hw)

lemma gamma_norm_sum (ws : List ℚ) (hS : ws.sum ≠ 0) :
    sumF ((ws.map (fun w => w * (1 / ws.sum))).map F.fin) = F.fin 1 := by
  rw [sumF_map_fin, sum_map_mul_const, mul_one_div, div_self hS]

lemma stick_break_wellformed (ds : List F)
    (hds : ∀ x ∈ ds, ∃ q : ℚ, x = F.fin q ∧ 0 < q ∧ q < 1) (hne : ds ≠ []) :
    ∀ x ∈ specStickBreak (F.fin 1) ds, ∃ q : ℚ, x = F.fin q ∧ 0 < q ∧ q < 1 := by
  obtain ⟨d0, ds', rfl⟩ := List.exists_cons_of_ne_nil hne
  obtain ⟨q0, rfl, h00, h01⟩ := hds d0 (by simp)
  intro x hx
  simp only [specStickBreak, F.fin_mul, F.fin_sub] at hx
  rcases List.mem_cons.mp hx with rfl | hx'
  · exact ⟨1 * q0, rfl, by nlinarith, by nlinarith⟩
  · exact specStickBreak_mem (by nlinarith) (by nlinarith)
      (fun y hy => hds y (List.mem_cons_of_mem _ hy)) x hx'

/-- C4: for every validly constructed parameter object and every randomness
source whose collaborator draws are well-behaved (positive and finite, and
inside `(0, 1)` on the beta path), sampling cannot fail, the output has the
same length as `alpha`, every component lies strictly between 0 and 1, and in
the exact arithmetic of the model the components sum to exactly 1. -/
theorem spec_c4_output_wellformed (alpha : List F) (d : Dirichlet) (r : Rng)
    (hvalid : Dirichlet.new alpha = Except.ok d)
    (hdraw : ∀ k : Nat, ∃ q : ℚ, r.stream k = F.fin q ∧ 0 < q ∧
      (alpha.all (fun x => F.le x (F.fin (1/10))) = true → q < 1)) :
    ∃ out tr rF, d.sample r = some (out, tr, rF) ∧
      out.length = alpha.length ∧
      (∀ x ∈ out, ∃ q : ℚ, x = F.fin q ∧ 0 < q ∧ q < 1) ∧
      sumF out = F.fin 1 := by
  obtain ⟨hd, hlen, hpos⟩ := new_eq_ok hvalid
  cases hsm : alpha.all (fun x => F.le x (F.fin (1/10))) with
  | true =>
    obtain ⟨qs, hq, hql, hqp, hqs⟩ := valid_small_extract hvalid hsm
    have hds : ∀ x ∈ drawVals r (qs.length - 1),
        ∃ q : ℚ, x = F.fin q ∧ 0 < q ∧ q < 1 := by
      intro x hx
      obtain ⟨j, _, rfl⟩ := List.mem_map.mp hx
      obtain ⟨q, hqe, h0, h1⟩ := hdraw (r.pos + j)
      exact ⟨q, hqe, h0, h1 hsm⟩
    have hne : drawVals r (qs.length - 1) ≠ [] := by
      intro h
      have hL := congrArg List.length h
      rw [drawVals_length] at hL
      simp at hL
      omega
    refine ⟨_, _, _, sample_stick_eq d r qs (by rw [hd, hq]) hql hqp hqs, ?_, ?_, ?_⟩
    · rw [specStickBreak_length, drawVals_length, hq, List.length_map]
      omega
    · exact stick_break_wellformed _ hds hne
    · exact specStickBreak_sum (fun y hy => (hds y hy).imp (fun q hq => hq.1)) 1
  | false =>
    have hgs : ∀ x ∈ drawVals r d.alpha.length, ∃ q : ℚ, x = F.fin q ∧ 0 < q := by
      intro x hx
      obtain ⟨j, _, rfl⟩ := List.mem_map.mp hx
      obtain ⟨q, hqe, h0, _⟩ := hdraw (r.pos + j)
      exact ⟨q, hqe, h0⟩
    have hmapQ : drawVals r d.alpha.length =
        ((drawVals r d.alpha.length).map F.toQ).map F.fin :=
      eq_map_toQ (fun a ha => (hgs a ha).imp (fun q hq => hq.1))
    have hwpos : ∀ w ∈ (drawVals r d.alpha.length).map F.toQ, 0 < w := by
      intro w hw
      obtain ⟨a, ha, rfl⟩ := List.mem_map.mp hw
      obtain ⟨q, hqe, h0⟩ := hgs a ha
      rw [hqe]
      simpa [F.toQ] using h0
    have hwlen : 2 ≤ ((drawVals r d.alpha.length).map F.toQ).length := by
      rw [List.length_map, drawVals_length, hd]
      omega
    have hS : ((drawVals r d.alpha.length).map F.toQ).sum ≠ 0 :=
      ne_of_gt (List.sum_pos _ hwpos (by intro h; rw [h] at hwlen; simp at hwlen))
    have hout : (drawVals r d.alpha.length).map
        (fun g => g.mul ((F.fin 1).div
          ((drawVals r d.alpha.length).foldl F.add (F.fin 0)))) =
        (((drawVals r d.alpha.length).map F.toQ).map
          (fun w => w * (1 / ((drawVals r d.alpha.length).map F.toQ).sum))).map F.fin := by
      conv_lhs => rw [hmapQ]
      exact gamma_out_eq _ hS
    refine ⟨_, _, _,
      sample_gamma_eq d r (by rw [hd]; exact hpos) (by rw [hd]; exact hsm), ?_, ?_, ?_⟩
    · rw [hout]
      simp [hd]
    · rw [hout]
      exact gamma_norm_mem _ hwpos hwlen
    · rw [hout]
      exact gamma_norm_sum _ hS

/-- C4 witness: well-formedness evaluated at a concrete stick-path input. -/
theorem spec_c4_output_wellformed_w :
    ∃ out tr rF,
      (Dirichlet.mk [F.fin (1/20), F.fin (1/20)]).sample ⟨fun _ => F.fin (1/2), 0⟩ =
        some (out, tr, rF) ∧
      out.length = ([F.fin (1/20), F.fin (1/20)] : List F).length ∧
      (∀ x ∈ out, ∃ q : ℚ, x = F.fin q ∧ 0 < q ∧ q < 1) ∧
      sumF out = F.fin 1 :=
  spec_c4_output_wellformed [F.fin (1/20), F.fin (1/20)] ⟨[F.fin (1/20), F.fin (1/20)]⟩
    ⟨fun _ => F.fin (1/2), 0⟩ (by norm_num [Dirichlet.new, allPositive])
    (fun _ => ⟨1/2, rfl, by norm_num, fun _ => by norm_num⟩)
